import Mathlib

/-!
Verification of the canvasPlayground rasterization / viewport core.

Shallow embedding of the TypeScript sources under `src/` (color.ts,
pixelbuffer.ts, raster.ts, viewport.ts, renderer.ts/textCache).  JS `number`
arithmetic is modelled by exact rational arithmetic (`ℚ`); machine integer
coercions (`x | 0`, `x >>> 0`) are modelled explicitly with truncation and
`% 2^32`.  Buffers are modelled as total pixel maps `ℕ → ℕ → Px`, which is
faithful because every in-range write of the source goes through the
row-major index `(y*width + x)*4`, injective in `(x, y)` for `x < width`.
-/

/-- A stored pixel: four channel bytes `(r, g, b, a)` as naturals. -/
def Px : Type := ℕ × ℕ × ℕ × ℕ

instance : DecidableEq Px := by unfold Px; infer_instance

/-- JS `Math.trunc` / the integer extraction step of `ToInt32`/`ToUint32`:
truncation of a rational toward zero. -/
def jsTrunc (q : ℚ) : ℤ := if q < 0 then ⌈q⌉ else ⌊q⌋

/-- JS `x >>> 0` (`ToUint32`): truncate toward zero, then reduce mod `2^32`.
`Int.emod` is already the Euclidean (nonnegative) remainder. -/
def toUint32 (q : ℚ) : ℕ := (jsTrunc q % (4294967296 : ℤ)).toNat

/-- JS `Math.round`: round half toward positive infinity. -/
def jsRound (q : ℚ) : ℤ := ⌊q + 1 / 2⌋

/-- The `(v + 0.5) | 0` conversion used when storing blended channels.
For the nonnegative channel values it is applied to, `| 0` truncation
coincides with the floor, so the result is `⌊v + 1/2⌋` (round half up). -/
def roundChan (q : ℚ) : ℕ := (⌊q + 1 / 2⌋).toNat

-- ───────────────────────────── color.ts ─────────────────────────────

/-- `blendRGBA` from color.ts: canonical Porter-Duff source-over blend on
non-premultiplied 0..255 channels, returned unrounded (JS returns the raw
rational channel values; callers round). -/
def blendRGBA (dr dg db da sr sg sb sa : ℚ) : ℚ × ℚ × ℚ × ℚ :=
  let dna := da / 255
  let sna := sa / 255
  let outA := sna + dna * (1 - sna)
  if outA ≤ 0 then (0, 0, 0, 0)
  else
    let inv := 1 - sna
    let r := (sr * sna + dr * dna * inv) / outA
    let g := (sg * sna + dg * dna * inv) / outA
    let b := (sb * sna + db * dna * inv) / outA
    (r, g, b, outA * 255)

/-- A stored-pixel blend step: `blendRGBA` on the destination pixel `d` and
source color `s`, with each output channel stored via `(v + 0.5) | 0`
(as in `putPixelBlend`, `fillCircle`, `fillPolygon`). -/
def blendPx (d s : Px) : Px :=
  let o := blendRGBA d.1 d.2.1 d.2.2.1 d.2.2.2 s.1 s.2.1 s.2.2.1 s.2.2.2
  (roundChan o.1, roundChan o.2.1, roundChan o.2.2.1, roundChan o.2.2.2)

/-- `packABGR` from color.ts: `(a << 24) | (b << 16) | (g << 8) | r`.
We model the 32-bit pattern of the JS result (JS yields the signed int32
reading of these same 32 bits; `unpackABGR`'s `>>>`/`&` operate on the
pattern). -/
def packABGR (r g b a : ℕ) : ℕ := (a <<< 24) ||| (b <<< 16) ||| (g <<< 8) ||| r

/-- `unpackABGR` from color.ts:
`[px & 255, (px >>> 8) & 255, (px >>> 16) & 255, (px >>> 24) & 255]`. -/
def unpackABGR (px : ℕ) : Px :=
  (px &&& 255, (px >>> 8) &&& 255, (px >>> 16) &&& 255, (px >>> 24) &&& 255)

theorem lor_disjoint (n x y : ℕ) (h : y < 2 ^ n) : (x * 2 ^ n) ||| y = x * 2 ^ n + y := by
  apply Nat.eq_of_testBit_eq
  intro i
  rw [Nat.testBit_lor, mul_comm x (2 ^ n), Nat.testBit_mul_pow_two_add x h i,
    Nat.testBit_mul_pow_two]
  rcases Nat.lt_or_ge i n with hi | hi
  · simp [hi, Nat.not_le_of_lt hi]
  · have hy : y.testBit i = false :=
      Nat.testBit_lt_two_pow (lt_of_lt_of_le h (Nat.pow_le_pow_right (by norm_num) hi))
    simp [if_neg (Nat.not_lt_of_ge hi), hi, hy]

theorem packABGR_eq (r g b a : ℕ) (hr : r < 256) (hg : g < 256) (hb : b < 256) :
    packABGR r g b a = a * 2 ^ 24 + b * 2 ^ 16 + g * 2 ^ 8 + r := by
  unfold packABGR
  rw [Nat.shiftLeft_eq, Nat.shiftLeft_eq, Nat.shiftLeft_eq,
    lor_disjoint 24 a (b * 2 ^ 16) (by omega)]
  have e2 : a * 2 ^ 24 + b * 2 ^ 16 = (a * 2 ^ 8 + b) * 2 ^ 16 := by ring
  rw [e2, lor_disjoint 16 _ (g * 2 ^ 8) (by omega)]
  have e3 : (a * 2 ^ 8 + b) * 2 ^ 16 + g * 2 ^ 8 = (a * 2 ^ 16 + b * 2 ^ 8 + g) * 2 ^ 8 := by
    ring
  rw [e3, lor_disjoint 8 _ r (by omega)]

/-- C10: for all channel bytes in 0..255, `unpackABGR (packABGR r g b a)`
recovers exactly `[r, g, b, a]`: the ABGR packing used by the fast clear
path and its unpacking are exact inverses. -/
theorem unpack_pack_roundtrip (r g b a : ℕ)
    (hr : r ≤ 255) (hg : g ≤ 255) (hb : b ≤ 255) (ha : a ≤ 255) :
    unpackABGR (packABGR r g b a) = (r, g, b, a) := by
  rw [packABGR_eq r g b a (by omega) (by omega) (by omega)]
  unfold unpackABGR
  have h255 : (255 : ℕ) = 2 ^ 8 - 1 := by norm_num
  rw [h255, Nat.and_pow_two_sub_one_eq_mod, Nat.and_pow_two_sub_one_eq_mod,
    Nat.and_pow_two_sub_one_eq_mod, Nat.and_pow_two_sub_one_eq_mod,
    Nat.shiftRight_eq_div_pow, Nat.shiftRight_eq_div_pow, Nat.shiftRight_eq_div_pow]
  refine Prod.ext ?_ (Prod.ext ?_ (Prod.ext ?_ ?_)) <;> simp only <;> omega

/-- Witness for C10 at a concrete channel tuple. -/
theorem unpack_pack_roundtrip_witness :
    unpackABGR (packABGR 12 34 56 255) = (12, 34, 56, 255) :=
  unpack_pack_roundtrip 12 34 56 255 (by decide) (by decide) (by decide) (by decide)

theorem roundChan_natCast (n : ℕ) : roundChan (n : ℚ) = n := by
  unfold roundChan
  have h : ⌊(n : ℚ) + 1 / 2⌋ = (n : ℤ) := by
    refine Int.floor_eq_iff.mpr ⟨by simp, by push_cast; norm_num⟩
  rw [h]
  simp

/-- C3 (amended): blending a fully opaque source returns exactly the source
color; blending a fully transparent source over a destination with nonzero
alpha leaves the destination pixel unchanged after round-half-up storage. -/
theorem blend_opaque_transparent_identity
    (dr dg db da sr sg sb : ℚ) (d s : Px) (hda : 1 ≤ d.2.2.2) (hsa : s.2.2.2 = 0) :
    blendRGBA dr dg db da sr sg sb 255 = (sr, sg, sb, 255) ∧ blendPx d s = d := by
  constructor
  · unfold blendRGBA
    norm_num
  · obtain ⟨d1, d2, d3, d4⟩ := d
    obtain ⟨s1, s2, s3, s4⟩ := s
    simp only at hda hsa
    subst hsa
    unfold blendPx blendRGBA
    have h4 : (0 : ℚ) < (d4 : ℚ) / 255 := by
      have : (1 : ℚ) ≤ (d4 : ℚ) := by exact_mod_cast hda
      positivity
    have hne : ((d4 : ℚ) / 255) ≠ 0 := ne_of_gt h4
    norm_num [not_le.mpr h4]
    rw [mul_div_assoc, div_self hne, mul_div_assoc, div_self hne, mul_div_assoc, div_self hne]
    simp [roundChan_natCast]

/-- Witness for C3 at concrete channel values. -/
theorem blend_opaque_transparent_identity_witness :
    blendRGBA 1 2 3 4 5 6 7 255 = (5, 6, 7, 255) ∧ blendPx (10, 20, 30, 255) (9, 9, 9, 0) = (10, 20, 30, 255) :=
  blend_opaque_transparent_identity 1 2 3 4 5 6 7 (10, 20, 30, 255) (9, 9, 9, 0) (by decide) (by decide)

/-- C3 counterexample: with source alpha 0 over the destination
`[100, 50, 20, 0]` (zero destination alpha), the blend returns `[0,0,0,0]`,
which after conversion is not the destination pixel. -/
theorem blend_transparent_counterexample :
    blendPx (100, 50, 20, 0) (0, 0, 0, 0) = (0, 0, 0, 0) ∧
      ((0, 0, 0, 0) : Px) ≠ ((100, 50, 20, 0) : Px) := by
  constructor
  · norm_num [blendPx, blendRGBA, roundChan]
  · decide

-- ──────────────────────────── viewport.ts ────────────────────────────

/-- A viewport rectangle in pixel space. -/
structure Rect where
  x : ℚ
  y : ℚ
  width : ℚ
  height : ℚ

/-- World bounds. -/
structure WorldBounds where
  xMin : ℚ
  xMax : ℚ
  yMin : ℚ
  yMax : ℚ

/-- The `preserveAspect` field: JS `false | true | "fit" | "cover" | "none"`. -/
inductive Aspect where
  | off
  | on
  | fit
  | cover
  | strNone
deriving DecidableEq

/-- JS truthiness of the `preserveAspect` value (`"none"` is a truthy string). -/
def Aspect.truthy : Aspect → Bool
  | .off => false
  | _ => true

/-- The stretch test of the `scale` getter:
`!this.preserveAspect || this.preserveAspect === "none"`. -/
def Aspect.isStretch : Aspect → Bool
  | .off => true
  | .strNone => true
  | _ => false

/-- The `ViewportManager` state the mapping methods read: world bounds, the
resolved viewport rectangle, and the aspect policy. -/
structure ViewportManager where
  worldBounds : WorldBounds
  viewport : Rect
  preserveAspect : Aspect

/-- The `scale` getter (ratio-comparison variant, viewport.ts lines 26-41). -/
def ViewportManager.scale (vm : ViewportManager) : ℚ × ℚ :=
  let xRange := vm.worldBounds.xMax - vm.worldBounds.xMin
  let yRange := vm.worldBounds.yMax - vm.worldBounds.yMin
  let vp := vm.viewport
  if vm.preserveAspect.isStretch then (vp.width / xRange, vp.height / yRange)
  else
    let viewRatio := vp.width / vp.height
    let dataRatio := xRange / yRange
    let s := if dataRatio < viewRatio then vp.height / yRange else vp.width / xRange
    (s, s)

/-- `worldToCanvas` (viewport.ts lines 44-58).  Its branch condition is the
truthiness of `preserveAspect` (so the string `"none"` also takes the
uniform branch, with `scale.x`). -/
def ViewportManager.worldToCanvas (vm : ViewportManager) (x y : ℚ) : ℚ × ℚ :=
  let vp := vm.viewport
  let wb := vm.worldBounds
  let xRange := wb.xMax - wb.xMin
  let yRange := wb.yMax - wb.yMin
  if vm.preserveAspect.truthy then
    let s := vm.scale.1
    let scaledWidth := s * xRange
    let scaledHeight := s * yRange
    let offsetX := vp.x + (vp.width - scaledWidth) / 2
    let offsetY := vp.y + (vp.height - scaledHeight) / 2
    (offsetX + (x - wb.xMin) * s, offsetY + (yRange - (y - wb.yMin)) * s)
  else
    let sc := vm.scale
    (vp.x + (x - wb.xMin) * sc.1, vp.y + (wb.yMax - y) * sc.2)

/-- `canvasToWorld` (viewport.ts lines 60-74). -/
def ViewportManager.canvasToWorld (vm : ViewportManager) (px py : ℚ) : ℚ × ℚ :=
  let vp := vm.viewport
  let wb := vm.worldBounds
  let xRange := wb.xMax - wb.xMin
  let yRange := wb.yMax - wb.yMin
  if vm.preserveAspect.truthy then
    let s := vm.scale.1
    let scaledWidth := s * xRange
    let scaledHeight := s * yRange
    let offsetX := vp.x + (vp.width - scaledWidth) / 2
    let offsetY := vp.y + (vp.height - scaledHeight) / 2
    (wb.xMin + (px - offsetX) / s, wb.yMax - (py - offsetY) / s)
  else
    let sc := vm.scale
    (wb.xMin + (px - vp.x) / sc.1, wb.yMax - (py - vp.y) / sc.2)

/-- `aspectMode()` of the second viewport revision: normalizes
`preserveAspect` to `none`/`square`/`fit` (`true ↦ square`; the strings
`"cover"`/`"none"` and `false` all normalize to `none`). -/
inductive AspectMode where
  | amNone
  | amSquare
  | amFit
deriving DecidableEq

def ViewportManager.aspectMode (vm : ViewportManager) : AspectMode :=
  match vm.preserveAspect with
  | .on => .amSquare
  | .off => .amNone
  | .strNone => .amNone
  | .fit => .amFit
  | .cover => .amNone

/-- The `scale` getter of the second revision (viewport.ts lines 143-164),
which takes `Math.min` of the two per-axis candidates in uniform modes. -/
def ViewportManager.scaleMinVariant (vm : ViewportManager) : ℚ × ℚ :=
  let s := vm.worldBounds.xMax - vm.worldBounds.xMin
  let o := vm.worldBounds.yMax - vm.worldBounds.yMin
  let a := vm.viewport
  if vm.aspectMode = .amNone then (a.width / s, a.height / o)
  else
    let lx := a.width / s
    let ly := a.height / o
    let l := min lx ly
    (l, l)

/-- C1: under every aspect policy, for world bounds with `xMax > xMin`,
`yMax > yMin` and a viewport with positive width and height,
`canvasToWorld ∘ worldToCanvas` is the identity on world points (exact
equality in ideal arithmetic, hence within any floating-point tolerance). -/
theorem canvasToWorld_worldToCanvas (vm : ViewportManager)
    (hx : vm.worldBounds.xMin < vm.worldBounds.xMax)
    (hy : vm.worldBounds.yMin < vm.worldBounds.yMax)
    (hw : 0 < vm.viewport.width) (hh : 0 < vm.viewport.height) (x y : ℚ) :
    vm.canvasToWorld (vm.worldToCanvas x y).1 (vm.worldToCanvas x y).2 = (x, y) := by
  obtain ⟨wb, vp, pa⟩ := vm
  simp only at hx hy hw hh
  have hxR : (0 : ℚ) < wb.xMax - wb.xMin := sub_pos.mpr hx
  have hyR : (0 : ℚ) < wb.yMax - wb.yMin := sub_pos.mpr hy
  cases pa <;>
    simp only [ViewportManager.canvasToWorld, ViewportManager.worldToCanvas,
      ViewportManager.scale, Aspect.truthy, Aspect.isStretch, if_true, if_false,
      Bool.false_eq_true, reduceIte] <;>
    refine Prod.ext ?_ ?_ <;> simp only
  case mk.off.refine_1 => field_simp; ring
  case mk.off.refine_2 => field_simp; ring
  case mk.strNone.refine_1 => field_simp; ring
  case mk.strNone.refine_2 => field_simp; ring
  all_goals split_ifs <;> field_simp <;> ring

/-- Witness for C1: concrete round trip under the `"fit"` policy. -/
theorem canvasToWorld_worldToCanvas_witness :
    (0 : ℚ) < 10 ∧
      ViewportManager.canvasToWorld ⟨⟨0, 10, 0, 10⟩, ⟨0, 0, 100, 50⟩, .fit⟩
        ((ViewportManager.worldToCanvas ⟨⟨0, 10, 0, 10⟩, ⟨0, 0, 100, 50⟩, .fit⟩ 3 7).1)
        ((ViewportManager.worldToCanvas ⟨⟨0, 10, 0, 10⟩, ⟨0, 0, 100, 50⟩, .fit⟩ 3 7).2) = (3, 7) :=
  ⟨by norm_num,
    canvasToWorld_worldToCanvas ⟨⟨0, 10, 0, 10⟩, ⟨0, 0, 100, 50⟩, .fit⟩
      (by norm_num) (by norm_num) (by norm_num) (by norm_num) 3 7⟩

/-- C2: under every uniform aspect policy (and bounds with positive ranges
and a positive viewport), the ratio-comparison `scale` getter returns the
vector whose two components both equal
`min (width / xRange) (height / yRange)`; the `Math.min` revision of the
getter returns the same vector in its uniform modes. -/
theorem scale_uniform_is_min (vm : ViewportManager)
    (hx : vm.worldBounds.xMin < vm.worldBounds.xMax)
    (hy : vm.worldBounds.yMin < vm.worldBounds.yMax)
    (hw : 0 < vm.viewport.width) (hh : 0 < vm.viewport.height) :
    (vm.preserveAspect.isStretch = false →
      vm.scale =
        (min (vm.viewport.width / (vm.worldBounds.xMax - vm.worldBounds.xMin))
            (vm.viewport.height / (vm.worldBounds.yMax - vm.worldBounds.yMin)),
          min (vm.viewport.width / (vm.worldBounds.xMax - vm.worldBounds.xMin))
            (vm.viewport.height / (vm.worldBounds.yMax - vm.worldBounds.yMin)))) ∧
    (vm.aspectMode ≠ AspectMode.amNone →
      vm.scaleMinVariant =
        (min (vm.viewport.width / (vm.worldBounds.xMax - vm.worldBounds.xMin))
            (vm.viewport.height / (vm.worldBounds.yMax - vm.worldBounds.yMin)),
          min (vm.viewport.width / (vm.worldBounds.xMax - vm.worldBounds.xMin))
            (vm.viewport.height / (vm.worldBounds.yMax - vm.worldBounds.yMin)))) := by
  obtain ⟨wb, vp, pa⟩ := vm
  simp only at hx hy hw hh
  have hxR : (0 : ℚ) < wb.xMax - wb.xMin := sub_pos.mpr hx
  have hyR : (0 : ℚ) < wb.yMax - wb.yMin := sub_pos.mpr hy
  have key :
      (if (wb.xMax - wb.xMin) / (wb.yMax - wb.yMin) < vp.width / vp.height then
          vp.height / (wb.yMax - wb.yMin)
        else vp.width / (wb.xMax - wb.xMin)) =
        min (vp.width / (wb.xMax - wb.xMin)) (vp.height / (wb.yMax - wb.yMin)) := by
    split_ifs with hlt
    · have hcross := (div_lt_div_iff₀ hyR hh).mp hlt
      refine (min_eq_right ?_).symm
      rw [div_le_div_iff₀ hyR hxR]
      linarith
    · push_neg at hlt
      have hcross := (div_le_div_iff₀ hh hyR).mp hlt
      refine (min_eq_left ?_).symm
      rw [div_le_div_iff₀ hxR hyR]
      linarith
  constructor
  · intro hstr
    simp only [ViewportManager.scale, hstr, Bool.false_eq_true, reduceIte]
    rw [key]
  · intro hm
    simp only [ViewportManager.scaleMinVariant, if_neg hm]

/-- Witness for C2: concrete uniform scale under the `"fit"` policy. -/
theorem scale_uniform_is_min_witness :
    ViewportManager.scale ⟨⟨0, 10, 0, 10⟩, ⟨0, 0, 100, 50⟩, .fit⟩ = (5, 5) ∧
      ViewportManager.scaleMinVariant ⟨⟨0, 10, 0, 10⟩, ⟨0, 0, 100, 50⟩, .fit⟩ = (5, 5) := by
  have h := scale_uniform_is_min ⟨⟨0, 10, 0, 10⟩, ⟨0, 0, 100, 50⟩, .fit⟩
    (by norm_num) (by norm_num) (by norm_num) (by norm_num)
  constructor
  · rw [h.1 (by decide)]
    norm_num
  · rw [h.2 (by decide)]
    norm_num

-- ─────────────────────────── pixelbuffer.ts ───────────────────────────

/-- JS `x | 0` (`ToInt32`). -/
def toInt32 (q : ℚ) : ℤ := (jsTrunc q + 2147483648) % 4294967296 - 2147483648

/-- A pixel buffer: dimensions plus a total pixel map.  This models the
RGBA byte array through the row-major index `(y*width + x)*4`, injective
in `(x, y)` over the in-range writes the source performs. -/
structure PixelBuffer where
  width : ℕ
  height : ℕ
  pix : ℕ → ℕ → Px

/-- A freshly cleared buffer of one uniform color (`clear` fills every
pixel with the same packed color). -/
def mkBuffer (w h : ℕ) (c : Px) : PixelBuffer := ⟨w, h, fun _ _ => c⟩

/-- `putPixel`: guard `x >>> 0 >= width >>> 0 || y >>> 0 >= height >>> 0`
(with `width >>> 0 = width` for any real buffer dimension), then a direct
overwrite at `(x | 0, y | 0)`; when the guard passes, `x | 0` equals
`x >>> 0` because the value is below the width (≤ 2^31). -/
def putPixel (b : PixelBuffer) (x y : ℚ) (c : Px) : PixelBuffer :=
  if b.width ≤ toUint32 x ∨ b.height ≤ toUint32 y then b
  else
    { b with pix := fun i j => if i = toUint32 x ∧ j = toUint32 y then c else b.pix i j }

/-- `putPixelBlend`: same guard, but composites with `blendRGBA` and stores
with `(v + 0.5) | 0`. -/
def putPixelBlend (b : PixelBuffer) (x y : ℚ) (c : Px) : PixelBuffer :=
  if b.width ≤ toUint32 x ∨ b.height ≤ toUint32 y then b
  else
    { b with pix := fun i j =>
        if i = toUint32 x ∧ j = toUint32 y then blendPx (b.pix (toUint32 x) (toUint32 y)) c
        else b.pix i j }

/-- The per-pixel compositing step of `blit`:
`out = src*alpha + dst*(1-alpha)` on all four channels, `alpha = srcA/255`,
stored with `(v + 0.5) | 0`. -/
def blitPixel (s d : Px) : Px :=
  let alpha : ℚ := (s.2.2.2 : ℚ) / 255
  let invAlpha := 1 - alpha
  (roundChan ((s.1 : ℚ) * alpha + (d.1 : ℚ) * invAlpha),
    roundChan ((s.2.1 : ℚ) * alpha + (d.2.1 : ℚ) * invAlpha),
    roundChan ((s.2.2.1 : ℚ) * alpha + (d.2.2.1 : ℚ) * invAlpha),
    roundChan ((s.2.2.2 : ℚ) * alpha + (d.2.2.2 : ℚ) * invAlpha))

/-- `blit`: composite `src` onto `b` at offset `(dx | 0, dy | 0)`, clipped
to the overlap `[startX, endX) × [startY, endY)`.  The loops visit exactly
the target pixels of that rectangle once each, reading only the target's
own previous value, so the effect is pointwise. -/
def blit (b src : PixelBuffer) (dx0 dy0 : ℚ) : PixelBuffer :=
  let dx := toInt32 dx0
  let dy := toInt32 dy0
  let startX := max 0 dx
  let startY := max 0 dy
  let endX := min (b.width : ℤ) (dx + src.width)
  let endY := min (b.height : ℤ) (dy + src.height)
  { b with pix := fun tx ty =>
      if startX ≤ (tx : ℤ) ∧ (tx : ℤ) < endX ∧ startY ≤ (ty : ℤ) ∧ (ty : ℤ) < endY then
        blitPixel (src.pix ((tx : ℤ) - dx).toNat (((ty : ℤ) - dy).toNat)) (b.pix tx ty)
      else b.pix tx ty }

theorem toUint32_of_neg (x : ℚ) (h1 : x ≤ -1) (h2 : -(2 ^ 31) ≤ x) :
    2 ^ 31 ≤ toUint32 x := by
  unfold toUint32 jsTrunc
  rw [if_pos (lt_of_le_of_lt h1 (by norm_num))]
  have hc1 : ⌈x⌉ ≤ -1 := Int.ceil_le.mpr (by exact_mod_cast h1)
  have hc2 : -(2 ^ 31) ≤ ⌈x⌉ := by
    have hx : ((-(2 ^ 31) : ℤ) : ℚ) ≤ (⌈x⌉ : ℚ) := le_trans (by push_cast; linarith) (Int.le_ceil x)
    exact_mod_cast hx
  omega

theorem toUint32_of_ge (x : ℚ) (n : ℕ) (h1 : (n : ℚ) ≤ x) (h2 : x < 2 ^ 32) :
    n ≤ toUint32 x := by
  unfold toUint32 jsTrunc
  rw [if_neg (by push_neg; exact le_trans (by positivity) h1)]
  have hf1 : (n : ℤ) ≤ ⌊x⌋ := Int.le_floor.mpr (by exact_mod_cast h1)
  have hf2 : ⌊x⌋ < 2 ^ 32 := Int.floor_lt.mpr (by exact_mod_cast h2)
  omega

/-- C4 (amended): an out-of-range `putPixel`/`putPixelBlend` is a no-op for
coordinates at least one below 0 or at/above the dimension, as long as
coordinates stay within the `ToUint32` wrap-around range (±2^31 below,
2^32 above) and dimensions are int32-sized. -/
theorem putPixel_oob_noop (b : PixelBuffer) (x y : ℚ) (c : Px)
    (hw : b.width ≤ 2 ^ 31) (hh : b.height ≤ 2 ^ 31)
    (hout :
      (x ≤ -1 ∧ -(2 ^ 31) ≤ x) ∨ ((b.width : ℚ) ≤ x ∧ x < 2 ^ 32) ∨
        (y ≤ -1 ∧ -(2 ^ 31) ≤ y) ∨ ((b.height : ℚ) ≤ y ∧ y < 2 ^ 32)) :
    putPixel b x y c = b ∧ putPixelBlend b x y c = b := by
  have hguard : b.width ≤ toUint32 x ∨ b.height ≤ toUint32 y := by
    rcases hout with ⟨h1, h2⟩ | ⟨h1, h2⟩ | ⟨h1, h2⟩ | ⟨h1, h2⟩
    · exact Or.inl (le_trans hw (toUint32_of_neg x h1 h2))
    · exact Or.inl (toUint32_of_ge x b.width h1 h2)
    · exact Or.inr (le_trans hh (toUint32_of_neg y h1 h2))
    · exact Or.inr (toUint32_of_ge y b.height h1 h2)
  constructor
  · unfold putPixel
    rw [if_pos hguard]
  · unfold putPixelBlend
    rw [if_pos hguard]

/-- Witness for C4 on a concrete buffer and out-of-range coordinate. -/
theorem putPixel_oob_noop_witness :
    putPixel (mkBuffer 4 4 (0, 0, 0, 255)) 7 2 (255, 0, 0, 255) = mkBuffer 4 4 (0, 0, 0, 255) ∧
      putPixelBlend (mkBuffer 4 4 (0, 0, 0, 255)) 7 2 (255, 0, 0, 255) =
        mkBuffer 4 4 (0, 0, 0, 255) :=
  putPixel_oob_noop (mkBuffer 4 4 (0, 0, 0, 255)) 7 2 (255, 0, 0, 255)
    (by norm_num [mkBuffer]) (by norm_num [mkBuffer])
    (Or.inr (Or.inl (by constructor <;> norm_num [mkBuffer])))

/-- C4 counterexample: on a 4×4 buffer, `putPixel` at the out-of-range
coordinate `x = -0.5` (outside `[0, width)`) is not a no-op: `-0.5 >>> 0`
is `0`, so the guard passes and the edge pixel `(0, 2)` is overwritten. -/
theorem putPixel_oob_counterexample :
    (-1 / 2 : ℚ) < 0 ∧
      (putPixel (mkBuffer 4 4 (0, 0, 0, 255)) (-1 / 2) 2 (255, 0, 0, 255)).pix 0 2 =
        (255, 0, 0, 255) ∧
      (mkBuffer 4 4 (0, 0, 0, 255)).pix 0 2 = (0, 0, 0, 255) := by
  have hx : toUint32 (-1 / 2 : ℚ) = 0 := by
    have hc : ⌈(-1 / 2 : ℚ)⌉ = 0 := by norm_num
    unfold toUint32 jsTrunc
    rw [if_pos (by norm_num : (-1 / 2 : ℚ) < 0), hc]
    decide
  have hy : toUint32 (2 : ℚ) = 2 := by
    have hf : ⌊(2 : ℚ)⌋ = 2 := by norm_num
    unfold toUint32 jsTrunc
    rw [if_neg (by norm_num : ¬((2 : ℚ) < 0)), hf]
    decide
  refine ⟨by norm_num, ?_, by simp [mkBuffer]⟩
  unfold putPixel
  rw [if_neg (by rw [hx, hy]; simp [mkBuffer])]
  simp [hx, hy, mkBuffer]

/-- C7 (amended): `blit` leaves every pixel outside the clipped overlap
rectangle unchanged (hence tolerates partial or fully off-buffer
placement without error), and its per-pixel compositing is the straight
lerp `out = src·srcA/255 + dst·(1−srcA/255)` on all four channels — which
agrees with the rounded `blendRGBA` result for a fully opaque source, and
leaves the destination pixel exactly unchanged for a fully transparent
source. -/
theorem blit_clip_and_lerp (b src : PixelBuffer) (dx dy : ℚ) (tx ty : ℕ) (s d : Px) :
    (((tx : ℤ) < max 0 (toInt32 dx) ∨ min (b.width : ℤ) (toInt32 dx + src.width) ≤ (tx : ℤ) ∨
        (ty : ℤ) < max 0 (toInt32 dy) ∨ min (b.height : ℤ) (toInt32 dy + src.height) ≤ (ty : ℤ)) →
      (blit b src dx dy).pix tx ty = b.pix tx ty) ∧
    (s.2.2.2 = 255 → blitPixel s d = blendPx d s) ∧
    (s.2.2.2 = 0 → blitPixel s d = d) := by
  refine ⟨?_, ?_, ?_⟩
  · intro h
    unfold blit
    simp only
    rw [if_neg]
    rintro ⟨h1, h2, h3, h4⟩
    rcases h with h | h | h | h
    · exact absurd h1 (not_le.mpr h)
    · exact absurd h2 (not_lt.mpr h)
    · exact absurd h3 (not_le.mpr h)
    · exact absurd h4 (not_lt.mpr h)
  · obtain ⟨s1, s2, s3, s4⟩ := s
    obtain ⟨d1, d2, d3, d4⟩ := d
    intro h
    simp only at h
    subst h
    unfold blitPixel blendPx blendRGBA
    norm_num
  · obtain ⟨s1, s2, s3, s4⟩ := s
    obtain ⟨d1, d2, d3, d4⟩ := d
    intro h
    simp only at h
    subst h
    unfold blitPixel
    norm_num [roundChan_natCast]

/-- Witness for C7: concrete out-of-overlap pixel and concrete per-pixel
agreements. -/
theorem blit_clip_and_lerp_witness :
    (blit (mkBuffer 2 2 (0, 0, 0, 255)) (mkBuffer 1 1 (255, 0, 0, 255)) 0 0).pix 5 5 =
        (0, 0, 0, 255) ∧
      blitPixel (9, 8, 7, 255) (1, 2, 3, 4) = blendPx (1, 2, 3, 4) (9, 8, 7, 255) ∧
      blitPixel (9, 8, 7, 0) (1, 2, 3, 4) = (1, 2, 3, 4) := by
  have h1 := blit_clip_and_lerp (mkBuffer 2 2 (0, 0, 0, 255)) (mkBuffer 1 1 (255, 0, 0, 255))
    0 0 5 5 (9, 8, 7, 255) (1, 2, 3, 4)
  have h2 := blit_clip_and_lerp (mkBuffer 2 2 (0, 0, 0, 255)) (mkBuffer 1 1 (255, 0, 0, 255))
    0 0 5 5 (9, 8, 7, 0) (1, 2, 3, 4)
  refine ⟨?_, h1.2.1 rfl, h2.2.2 rfl⟩
  have hout : min ((mkBuffer 2 2 ((0 : ℕ), (0 : ℕ), (0 : ℕ), (255 : ℕ))).width : ℤ)
      (toInt32 0 + (mkBuffer 1 1 ((255 : ℕ), (0 : ℕ), (0 : ℕ), (255 : ℕ))).width) ≤ (5 : ℤ) :=
    le_trans (min_le_left _ _) (by norm_num [mkBuffer])
  exact (h1.1 (Or.inr (Or.inl hout))).trans (by simp [mkBuffer])

/-- C7 counterexample: blitting a half-transparent black source pixel onto
an opaque black destination stores alpha 191, while `blendRGBA` (source
over, §4.2) yields alpha 255 — the per-pixel blit computation differs from
`blendRGBA` on the same inputs. -/
theorem blit_blendRGBA_counterexample :
    (blit (mkBuffer 1 1 (0, 0, 0, 255)) (mkBuffer 1 1 (0, 0, 0, 128)) 0 0).pix 0 0 =
        (0, 0, 0, 191) ∧
      blendPx (0, 0, 0, 255) (0, 0, 0, 128) = (0, 0, 0, 255) ∧ (191 : ℕ) ≠ 255 := by
  refine ⟨?_, by norm_num [blendPx, blendRGBA, roundChan]; rfl, by decide⟩
  have h0 : toInt32 (0 : ℚ) = 0 := by
    have hf : ⌊(0 : ℚ)⌋ = 0 := by norm_num
    unfold toInt32 jsTrunc
    rw [if_neg (by norm_num), hf]
    decide
  unfold blit
  simp only [mkBuffer, h0]
  rw [if_pos (by norm_num)]
  unfold blitPixel
  norm_num [roundChan]
  rfl

-- ───────────────────────────── raster.ts ─────────────────────────────

/-- `fillCircle` from raster.ts.  The scan rectangle is
`[max 0 ⌊c.x⌋, min (w−1) ⌈c.x⌉] × [max 0 ⌊c.y⌋, min (h−1) ⌈c.y⌉]` — the
bounds come from the center alone, without `± r` (the bundled dist
revisions use `c.x − r` / `c.x + r` here).  Every scanned pixel passing
`dx·dx + dy·dy ≤ r·r` is blended in place; the loop writes each pixel of
the rectangle at most once, reading only its own prior value, so the
effect is pointwise.  (`| 0` coercions are identities in int32 range.) -/
def fillCircle (b : PixelBuffer) (cx cy r : ℚ) (col : Px) : PixelBuffer :=
  let r2 := r * r
  let xMin : ℤ := max 0 ⌊cx⌋
  let xMax : ℤ := min ((b.width : ℤ) - 1) ⌈cx⌉
  let yMin : ℤ := max 0 ⌊cy⌋
  let yMax : ℤ := min ((b.height : ℤ) - 1) ⌈cy⌉
  { b with pix := fun x y =>
      if xMin ≤ (x : ℤ) ∧ (x : ℤ) ≤ xMax ∧ yMin ≤ (y : ℤ) ∧ (y : ℤ) ≤ yMax ∧
          ((x : ℚ) - cx) * ((x : ℚ) - cx) + ((y : ℚ) - cy) * ((y : ℚ) - cy) ≤ r2 then
        blendPx (b.pix x y) col
      else b.pix x y }

/-- The Bresenham loop of `rawLine`, with explicit fuel.  Each iteration
plots `(x0, y0)` through `putPixelBlend`, stops when the moving point
reaches `(x1, y1)`, else advances by the classic error update.  The fuel
`dx + dy + 1` used by `rawLine` dominates the source loop's iteration
count, so the embedding agrees with the unbounded loop. -/
def bresenhamLoop (fuel : ℕ) (x0 y0 x1 y1 sx sy dx dy err : ℤ) (col : Px)
    (b : PixelBuffer) : PixelBuffer :=
  match fuel with
  | 0 => b
  | fuel + 1 =>
    let b1 := putPixelBlend b (x0 : ℚ) (y0 : ℚ) col
    if x0 = x1 ∧ y0 = y1 then b1
    else
      let e2 := 2 * err
      let x0n := if -dy < e2 then x0 + sx else x0
      let err1 := if -dy < e2 then err - dy else err
      let y0n := if e2 < dx then y0 + sy else y0
      let err2 := if e2 < dx then err1 + dx else err1
      bresenhamLoop fuel x0n y0n x1 y1 sx sy dx dy err2 col b1

/-- `rawLine` from raster.ts: endpoints rounded with `Math.round`, then the
integer Bresenham walk, blending every touched pixel. -/
def rawLine (b : PixelBuffer) (p0x p0y p1x p1y : ℚ) (col : Px) : PixelBuffer :=
  let x0 := jsRound p0x
  let y0 := jsRound p0y
  let x1 := jsRound p1x
  let y1 := jsRound p1y
  let dx := |x1 - x0|
  let dy := |y1 - y0|
  let sx : ℤ := if x0 < x1 then 1 else -1
  let sy : ℤ := if y0 < y1 then 1 else -1
  let err := dx - dy
  bresenhamLoop (dx + dy + 1).toNat x0 y0 x1 y1 sx sy dx dy err col b

/-- An entry of `fillPolygon`'s edge table. -/
structure Edge where
  ymin : ℚ
  ymax : ℚ
  x : ℚ
  invSlope : ℚ

/-- Unguarded single-pixel blend at in-range coordinates: models the
direct `pixels[idx] = …` writes of the scanline/circle fill loops. -/
def blendAt (b : PixelBuffer) (x y : ℕ) (col : Px) : PixelBuffer :=
  { b with pix := fun i j => if i = x ∧ j = y then blendPx (b.pix x y) col else b.pix i j }

/-- One filled span `x ∈ [xStart, xEnd]` on row `y` (empty when
`xEnd < xStart`). -/
def fillRun (b : PixelBuffer) (y xStart xEnd : ℤ) (col : Px) : PixelBuffer :=
  (List.range (xEnd + 1 - xStart).toNat).foldl
    (fun acc k => blendAt acc (xStart + k).toNat y.toNat col) b

/-- Crossings `[0,1), [2,3), …` taken pairwise; a dangling odd crossing
pairs with JS `undefined`, whose `NaN` span bounds make the fill loop run
zero times, so it is dropped. -/
def spanPairs : List ℚ → List (ℚ × ℚ)
  | a :: c :: rest => (a, c) :: spanPairs rest
  | _ => []

/-- One scanline of `fillPolygon`: crossings of the active edges (half-open
test `ymin ≤ y < ymax`), sorted ascending, then pairwise spans clipped to
`[0, width−1]` and blended. -/
def fillScanline (edges : List Edge) (col : Px) (b : PixelBuffer) (y : ℤ) : PixelBuffer :=
  let crossings :=
    ((edges.filter (fun e => decide (e.ymin ≤ (y : ℚ)) && decide ((y : ℚ) < e.ymax))).map
        (fun e => e.x + ((y : ℚ) - e.ymin) * e.invSlope)).mergeSort (fun a c => a ≤ c)
  (spanPairs crossings).foldl
    (fun acc p => fillRun acc y (max 0 ⌊p.1⌋) (min ((acc.width : ℤ) - 1) ⌈p.2⌉) col) b

/-- `fillPolygon` from raster.ts: scanline fill over an active-edge table.
Horizontal edges are skipped.  When every edge is horizontal the edge list
is empty and JS's `±Infinity | 0 = 0` bounds scan only row 0 with no
crossings — a no-op, modelled by returning the buffer unchanged. -/
def fillPolygon (b : PixelBuffer) (points : List (ℚ × ℚ)) (col : Px) : PixelBuffer :=
  let n := points.length
  if n < 3 then b
  else
    let edges := (List.range n).filterMap (fun i =>
      let p1 := points.getD i (0, 0)
      let p2 := points.getD ((i + 1) % n) (0, 0)
      if p1.2 = p2.2 then none
      else
        some ⟨min p1.2 p2.2, max p1.2 p2.2, if p1.2 < p2.2 then p1.1 else p2.1,
          (p2.1 - p1.1) / (p2.2 - p1.2)⟩)
    match edges with
    | [] => b
    | e :: es =>
      let minY := (es.map Edge.ymin).foldl min e.ymin
      let maxY := (es.map Edge.ymax).foldl max e.ymax
      let yLo : ℤ := max 0 ⌊minY⌋
      let yHi : ℤ := min ((b.height : ℤ) - 1) ⌈maxY⌉
      (List.range (yHi + 1 - yLo).toNat).foldl
        (fun acc k => fillScanline (e :: es) col acc (yLo + k)) b

/-- C5 (code bug): on a 16×16 buffer, `fillCircle` at center (5,5) with
radius 3 leaves pixel (7,5) unchanged even though it is in bounds and
passes the inside test ((7−5)·(7−5) + 0 = 4 ≤ 9): the scan rectangle uses
`⌊c.x⌋..⌈c.x⌉` without `± r`, so only the center box is visited (the
center pixel itself is blended to the source color). -/
theorem fillCircle_bbox_bug :
    ((7 : ℚ) - 5) * ((7 : ℚ) - 5) + ((5 : ℚ) - 5) * ((5 : ℚ) - 5) ≤ 3 * 3 ∧
      (fillCircle (mkBuffer 16 16 (0, 0, 0, 255)) 5 5 3 (255, 0, 0, 255)).pix 7 5 =
        (0, 0, 0, 255) ∧
      (fillCircle (mkBuffer 16 16 (0, 0, 0, 255)) 5 5 3 (255, 0, 0, 255)).pix 5 5 =
        (255, 0, 0, 255) := by
  refine ⟨by norm_num, ?_, ?_⟩
  · unfold fillCircle
    simp only [mkBuffer]
    rw [if_neg]
    rintro ⟨-, h2, -⟩
    norm_num at h2
  · unfold fillCircle
    simp only [mkBuffer]
    rw [if_pos ⟨by norm_num, by norm_num, by norm_num, by norm_num, by norm_num⟩]
    norm_num [blendPx, blendRGBA, roundChan]
    rfl

theorem toUint32_natCast (n : ℕ) (h : n < 4294967296) : toUint32 (n : ℚ) = n := by
  unfold toUint32 jsTrunc
  rw [if_neg (not_lt.mpr (by positivity)), Int.floor_natCast]
  omega

theorem rawLine_point (b : PixelBuffer) (p0x p0y p1x p1y : ℚ) (col : Px)
    (hx : jsRound p0x = jsRound p1x) (hy : jsRound p0y = jsRound p1y) :
    rawLine b p0x p0y p1x p1y col =
      putPixelBlend b (jsRound p0x : ℚ) (jsRound p0y : ℚ) col := by
  unfold rawLine
  rw [← hx, ← hy]
  simp only [sub_self, abs_zero, add_zero, Int.toNat_one]
  unfold bresenhamLoop
  simp

/-- C8 (amended): a polygon with fewer than 3 vertices is a no-op; a line
whose endpoints round to the same pixel performs exactly one blended put
at that pixel (not a no-op); `fillCircle` with radius 0 at an integer
center changes no pixel other than the center; a negative radius behaves
exactly like its absolute value; and for every radius — in particular 0
and negative values — the pixel at an integer in-bounds center has the
source color blended into it (the center always passes the inside test
`0 ≤ r·r`), so zero/negative radii are not no-ops there.  No operation
signals an error. -/
theorem degenerate_raster (b : PixelBuffer) (pts : List (ℚ × ℚ)) (col : Px)
    (p0x p0y p1x p1y : ℚ) (cx cy : ℤ) (x y : ℕ) (r : ℚ) :
    (pts.length < 3 → fillPolygon b pts col = b) ∧
    (jsRound p0x = jsRound p1x → jsRound p0y = jsRound p1y →
      rawLine b p0x p0y p1x p1y col = putPixelBlend b (jsRound p0x : ℚ) (jsRound p0y : ℚ) col) ∧
    (((x : ℤ), (y : ℤ)) ≠ (cx, cy) →
      (fillCircle b (cx : ℚ) (cy : ℚ) 0 col).pix x y = b.pix x y) ∧
    fillCircle b (cx : ℚ) (cy : ℚ) r col = fillCircle b (cx : ℚ) (cy : ℚ) (-r) col ∧
    (0 ≤ cx → cx < (b.width : ℤ) → 0 ≤ cy → cy < (b.height : ℤ) →
      (fillCircle b (cx : ℚ) (cy : ℚ) r col).pix cx.toNat cy.toNat =
        blendPx (b.pix cx.toNat cy.toNat) col) := by
  refine ⟨?_, ?_, ?_, ?_, ?_⟩
  · intro h
    unfold fillPolygon
    rw [if_pos h]
  · exact rawLine_point b p0x p0y p1x p1y col
  · intro hne
    unfold fillCircle
    simp only
    rw [if_neg]
    rintro ⟨-, -, -, -, hin⟩
    have hxc : ((x : ℚ) - (cx : ℚ)) * ((x : ℚ) - (cx : ℚ)) = 0 := by
      nlinarith [mul_self_nonneg ((x : ℚ) - (cx : ℚ)), mul_self_nonneg ((y : ℚ) - (cy : ℚ))]
    have hyc : ((y : ℚ) - (cy : ℚ)) * ((y : ℚ) - (cy : ℚ)) = 0 := by
      nlinarith [mul_self_nonneg ((x : ℚ) - (cx : ℚ)), mul_self_nonneg ((y : ℚ) - (cy : ℚ))]
    have hx1 : ((x : ℤ) : ℚ) = ((cx : ℤ) : ℚ) := by
      have := mul_self_eq_zero.mp hxc
      push_cast
      linarith
    have hy1 : ((y : ℤ) : ℚ) = ((cy : ℤ) : ℚ) := by
      have := mul_self_eq_zero.mp hyc
      push_cast
      linarith
    exact hne (Prod.ext (by exact_mod_cast hx1) (by exact_mod_cast hy1))
  · unfold fillCircle
    simp only [neg_mul_neg]
  · intro hcx0 hcxw hcy0 hcyh
    have hx : ((cx.toNat : ℤ)) = cx := Int.toNat_of_nonneg hcx0
    have hy : ((cy.toNat : ℤ)) = cy := Int.toNat_of_nonneg hcy0
    have hxq : ((cx.toNat : ℚ)) = (cx : ℚ) := by exact_mod_cast hx
    have hyq : ((cy.toNat : ℚ)) = (cy : ℚ) := by exact_mod_cast hy
    unfold fillCircle
    simp only
    rw [if_pos ⟨by rw [Int.floor_intCast, hx]; exact max_le hcx0 le_rfl,
      by rw [Int.ceil_intCast, hx]; exact le_min (by omega) le_rfl,
      by rw [Int.floor_intCast, hy]; exact max_le hcy0 le_rfl,
      by rw [Int.ceil_intCast, hy]; exact le_min (by omega) le_rfl,
      by rw [hxq, hyq]; simp [mul_self_nonneg]⟩]

/-- Witness for C8 at concrete degenerate inputs: the polygon no-op, the
single-pixel zero-length line, an unchanged non-center pixel, the r/−r
agreement, and — showing zero and negative radii are not no-ops — the
black center pixel turned to the line color by radius 0 and by radius −2. -/
theorem degenerate_raster_witness :
    fillPolygon (mkBuffer 4 4 (0, 0, 0, 255)) [(0, 0), (2, 2)] (255, 0, 0, 255) =
        mkBuffer 4 4 (0, 0, 0, 255) ∧
      rawLine (mkBuffer 4 4 (0, 0, 0, 255)) (6 / 5) (6 / 5) (6 / 5) (6 / 5) (255, 0, 0, 255) =
        putPixelBlend (mkBuffer 4 4 (0, 0, 0, 255)) 1 1 (255, 0, 0, 255) ∧
      (fillCircle (mkBuffer 4 4 (0, 0, 0, 255)) 1 1 0 (255, 0, 0, 255)).pix 3 3 =
        (0, 0, 0, 255) ∧
      fillCircle (mkBuffer 4 4 (0, 0, 0, 255)) 1 1 2 (255, 0, 0, 255) =
        fillCircle (mkBuffer 4 4 (0, 0, 0, 255)) 1 1 (-2) (255, 0, 0, 255) ∧
      (fillCircle (mkBuffer 4 4 (0, 0, 0, 255)) 1 1 0 (255, 0, 0, 255)).pix 1 1 =
        (255, 0, 0, 255) ∧
      (fillCircle (mkBuffer 4 4 (0, 0, 0, 255)) 1 1 (-2) (255, 0, 0, 255)).pix 1 1 =
        (255, 0, 0, 255) := by
  have h := degenerate_raster (mkBuffer 4 4 (0, 0, 0, 255)) [(0, 0), (2, 2)] (255, 0, 0, 255)
    (6 / 5) (6 / 5) (6 / 5) (6 / 5) 1 1 3 3 2
  have h0 := degenerate_raster (mkBuffer 4 4 (0, 0, 0, 255)) [(0, 0), (2, 2)] (255, 0, 0, 255)
    (6 / 5) (6 / 5) (6 / 5) (6 / 5) 1 1 3 3 0
  have hneg := degenerate_raster (mkBuffer 4 4 (0, 0, 0, 255)) [(0, 0), (2, 2)] (255, 0, 0, 255)
    (6 / 5) (6 / 5) (6 / 5) (6 / 5) 1 1 3 3 (-2)
  have hjr : jsRound (6 / 5 : ℚ) = 1 := by
    unfold jsRound
    norm_num
  have hblend : blendPx ((mkBuffer 4 4 (0, 0, 0, 255)).pix 1 1) (255, 0, 0, 255) =
      (255, 0, 0, 255) := by
    norm_num [mkBuffer, blendPx, blendRGBA, roundChan]
    rfl
  refine ⟨h.1 (by decide), ?_, ?_, ?_, ?_, ?_⟩
  · have h2 := h.2.1 rfl rfl
    rw [hjr] at h2
    push_cast at h2
    exact h2
  · have h3 := h.2.2.1 (by decide)
    push_cast at h3
    exact h3.trans rfl
  · have h4 := h.2.2.2.1
    push_cast at h4
    exact h4
  · have h5 := h0.2.2.2.2 (by decide) (by norm_num [mkBuffer]) (by decide)
      (by norm_num [mkBuffer])
    push_cast at h5
    rw [h5]
    exact hblend
  · have h6 := hneg.2.2.2.2 (by decide) (by norm_num [mkBuffer]) (by decide)
      (by norm_num [mkBuffer])
    push_cast at h6
    rw [h6]
    exact hblend

/-- C8 counterexample: a zero-length line is not a no-op — `rawLine` from
(1,1) to (1,1) on a black 4×4 buffer blends its single pixel, changing
pixel (1,1) from black to the line color. -/
theorem degenerate_raster_counterexample :
    (rawLine (mkBuffer 4 4 (0, 0, 0, 255)) 1 1 1 1 (255, 0, 0, 255)).pix 1 1 =
        (255, 0, 0, 255) ∧
      (mkBuffer 4 4 (0, 0, 0, 255)).pix 1 1 = (0, 0, 0, 255) := by
  refine ⟨?_, rfl⟩
  have hjr : jsRound (1 : ℚ) = 1 := by
    unfold jsRound
    norm_num
  rw [rawLine_point (mkBuffer 4 4 (0, 0, 0, 255)) 1 1 1 1 (255, 0, 0, 255) rfl rfl, hjr]
  have htU : toUint32 ((1 : ℤ) : ℚ) = 1 := by
    have : ((1 : ℤ) : ℚ) = ((1 : ℕ) : ℚ) := by norm_num
    rw [this]
    exact toUint32_natCast 1 (by norm_num)
  unfold putPixelBlend
  rw [if_neg (by rw [htU]; simp [mkBuffer])]
  simp only [mkBuffer, htU]
  rw [if_pos ⟨trivial, trivial⟩]
  norm_num [blendPx, blendRGBA, roundChan]
  rfl

-- ─────────────────────── viewport.ts: computeTicks ───────────────────────

/-- `Math.floor(Math.log10 q)` for a positive rational, computed exactly:
the unique `e` with `10^e ≤ q < 10^(e+1)`. -/
def log10floor (q : ℚ) : ℤ :=
  if 1 ≤ q then (Nat.log 10 ⌊q⌋.toNat : ℤ) else -(Nat.clog 10 ⌈1 / q⌉.toNat : ℤ)

/-- `nicify` from viewport.ts: round a positive step to the nearest "nice"
value `{1, 2, 5, 10}·10^e` (with the defensive `step ≤ 0` guard returning
1; `isFinite` is vacuous over ℚ). -/
def nicify (step : ℚ) : ℚ :=
  if ¬0 < step then 1
  else
    let e := log10floor step
    let f := step / (10 : ℚ) ^ e
    let nice : ℚ := if f < 3 / 2 then 1 else if f < 3 then 2 else if f < 7 then 5 else 10
    nice * (10 : ℚ) ^ e

/-- `v.toFixed(10)` re-parsed with the unary `+`: rounding to 10 decimal
places, ties toward the larger value. -/
def toFixed10 (v : ℚ) : ℚ := (⌊v * 10 ^ 10 + 1 / 2⌋ : ℚ) / 10 ^ 10

/-- `computeTicks` (index-loop variant, viewport.ts lines 235-254): nice
step from `nicify`, first tick at `⌈min/step⌉·step`, then
`maxIndex = ⌈(max − start)/step⌉` further ticks by index (the loop runs
zero times when `maxIndex < 0`, `maxIndex + 1` times otherwise), each
stored through `toFixed(10)`.  (`isFinite` guards are vacuous over ℚ.) -/
def computeTicks (min max numTicks : ℚ) : List ℚ :=
  if numTicks ≤ 0 then []
  else if |max - min| < 1 / 10 ^ 12 then [min]
  else
    let rawStep := (max - min) / numTicks
    let step := nicify rawStep
    if step ≤ 0 then [min, max]
    else
      let start := (⌈min / step⌉ : ℚ) * step
      let maxIndex := ⌈(max - start) / step⌉
      (List.range (maxIndex + 1).toNat).map (fun i : ℕ => toFixed10 (start + (i : ℚ) * step))

theorem nicify_pos (step : ℚ) : 0 < nicify step := by
  unfold nicify
  split_ifs <;> positivity

theorem toFixed10_lt (a b : ℚ) (h : a + 1 / 10 ^ 10 ≤ b) : toFixed10 a < toFixed10 b := by
  unfold toFixed10
  refine div_lt_div_of_pos_right ?_ (by positivity)
  have hfl : ⌊a * 10 ^ 10 + 1 / 2⌋ + 1 ≤ ⌊b * 10 ^ 10 + 1 / 2⌋ := by
    have h1 : (a * 10 ^ 10 + 1 / 2) + 1 ≤ b * 10 ^ 10 + 1 / 2 := by nlinarith
    calc ⌊a * 10 ^ 10 + 1 / 2⌋ + 1 = ⌊a * 10 ^ 10 + 1 / 2 + 1⌋ := (Int.floor_add_one _).symm
      _ ≤ ⌊b * 10 ^ 10 + 1 / 2⌋ := Int.floor_mono h1
  exact_mod_cast hfl

/-- C6 (amended): for finite `min < max` and `n ≥ 1`, `computeTicks` always
terminates with at least one tick; it has at least 2 ticks whenever the
range is at least the 1e-12 degeneracy cutoff and the nicified step does
not exceed `max − min`; and the tick list is strictly increasing whenever
the nicified step is at least 1e-10 (the `toFixed(10)` storage
granularity). -/
theorem computeTicks_props (min max n : ℚ) (h1 : min < max) (h2 : 1 ≤ n) :
    1 ≤ (computeTicks min max n).length ∧
    (1 / 10 ^ 12 ≤ max - min → nicify ((max - min) / n) ≤ max - min →
      2 ≤ (computeTicks min max n).length) ∧
    (1 / 10 ^ 10 ≤ nicify ((max - min) / n) →
      (computeTicks min max n).Chain' (· < ·)) := by
  have hn : ¬n ≤ 0 := by linarith
  by_cases hsmall : |max - min| < 1 / 10 ^ 12
  · have he : computeTicks min max n = [min] := by
      unfold computeTicks
      rw [if_neg hn, if_pos hsmall]
    refine ⟨by rw [he]; simp, ?_, ?_⟩
    · intro hR _
      exfalso
      rw [abs_of_pos (by linarith)] at hsmall
      linarith
    · intro _
      rw [he]
      exact List.chain'_singleton min
  · set step := nicify ((max - min) / n) with hstepdef
    have hstep_pos : 0 < step := nicify_pos _
    have hnotle : ¬step ≤ 0 := not_le.mpr hstep_pos
    set start := (⌈min / step⌉ : ℚ) * step with hstartdef
    set maxIndex := ⌈(max - start) / step⌉ with hmidef
    have he : computeTicks min max n =
        (List.range (maxIndex + 1).toNat).map
          (fun i : ℕ => toFixed10 (start + (i : ℚ) * step)) := by
      unfold computeTicks
      rw [if_neg hn, if_neg hsmall, if_neg hnotle]
    have hstart_lt : start < min + step := by
      have hc := Int.ceil_lt_add_one (min / step)
      calc start = (⌈min / step⌉ : ℚ) * step := rfl
        _ < (min / step + 1) * step := by
            exact mul_lt_mul_of_pos_right hc hstep_pos
        _ = min + step := by field_simp
    have hmi_nonneg : 0 ≤ maxIndex := by
      have hgt : ((-1 : ℤ) : ℚ) < (max - start) / step := by
        rw [lt_div_iff₀ hstep_pos]
        push_cast
        linarith
      have := Int.lt_ceil.mpr hgt
      omega
    refine ⟨?_, ?_, ?_⟩
    · rw [he]
      simp only [List.length_map, List.length_range]
      omega
    · intro hR hstepR
      rw [he]
      simp only [List.length_map, List.length_range]
      have hstart_lt_max : start < max := lt_of_lt_of_le hstart_lt (by linarith)
      have hg1 : ((0 : ℤ) : ℚ) < (max - start) / step := by
        push_cast
        exact div_pos (by linarith) hstep_pos
      have := Int.lt_ceil.mpr hg1
      omega
    · intro hstep10
      rw [he, List.chain'_map]
      obtain ⟨k, hk⟩ : ∃ k, (maxIndex + 1).toNat = k + 1 := ⟨maxIndex.toNat, by omega⟩
      rw [hk]
      refine (List.chain'_range_succ _ k).mpr (fun m hm => ?_)
      apply toFixed10_lt
      push_cast
      nlinarith

/-- Witness for C6 at `computeTicks 0 10 5` (step 2). -/
theorem computeTicks_props_witness :
    1 ≤ (computeTicks 0 10 5).length ∧ 2 ≤ (computeTicks 0 10 5).length ∧
      (computeTicks 0 10 5).Chain' (· < ·) := by
  have h := computeTicks_props 0 10 5 (by norm_num) (by norm_num)
  have hnic : nicify ((10 - 0 : ℚ) / 5) = 2 := by
    have h1 : log10floor ((10 - 0 : ℚ) / 5) = 0 := by
      unfold log10floor
      rw [if_pos (by norm_num)]
      norm_num
    unfold nicify
    rw [if_neg (by norm_num), h1]
    norm_num
  exact ⟨h.1, h.2.1 (by norm_num) (by rw [hnic]; norm_num), h.2.2 (by rw [hnic]; norm_num)⟩

/-- C6 counterexample: for `min = 2.2 < max = 3.9` and `n = 1` the nicified
step is 2 and the first multiple of the step at or above `min` is 4 > max,
so the index loop runs exactly once: `computeTicks` returns the single
tick `[4]`, not a sequence of at least 2 elements. -/
theorem computeTicks_counterexample :
    (11 / 5 : ℚ) < 39 / 10 ∧ (computeTicks (11 / 5) (39 / 10) 1).length = 1 := by
  refine ⟨by norm_num, ?_⟩
  have hnic : nicify ((39 / 10 - 11 / 5 : ℚ) / 1) = 2 := by
    have h1 : log10floor ((39 / 10 - 11 / 5 : ℚ) / 1) = 0 := by
      unfold log10floor
      rw [if_pos (by norm_num)]
      norm_num
    unfold nicify
    rw [if_neg (by norm_num), h1]
    norm_num
  unfold computeTicks
  rw [if_neg (by norm_num), if_neg (by rw [abs_of_pos (by norm_num)]; norm_num)]
  simp only [hnic]
  rw [if_neg (by norm_num)]
  have hce : ⌈(11 / 5 : ℚ) / 2⌉ = 2 := by norm_num [Int.ceil_eq_iff]
  rw [hce]
  have hmi : ⌈((39 / 10 : ℚ) - (2 : ℤ) * 2) / 2⌉ = 0 := by norm_num [Int.ceil_eq_iff]
  push_cast
  push_cast at hmi
  rw [hmi]
  simp

-- ──────────────────────── renderer.ts: TextCache ────────────────────────

/-- The LRU glyph cache of renderer.ts/textCache.ts, modelled on the JS
`Map` iteration order: `entries` lists `(key, value)` pairs oldest-first,
value `ℕ` standing in for the (always truthy) `ImageData` bitmaps. -/
structure TextCache where
  capacity : ℕ
  entries : List (String × ℕ)

/-- A freshly constructed cache. -/
def emptyTC (cap : ℕ) : TextCache := ⟨cap, []⟩

/-- The `while (this.map.size > this.capacity)` eviction loop: repeatedly
delete the first (oldest) key while over capacity. -/
def trimTC (cap : ℕ) : List (String × ℕ) → List (String × ℕ)
  | [] => []
  | e :: t => if cap < t.length + 1 then trimTC cap t else e :: t

/-- `Map.get`-based lookup (first — and only — entry with the key). -/
def TextCache.lookup (tc : TextCache) (k : String) : Option ℕ :=
  (tc.entries.find? (fun e => e.1 == k)).map (fun e => e.2)

/-- The cache effect of `get`: on a hit (an `ImageData` value is always
truthy) delete and re-insert, promoting the entry to most-recent; a JS
`Map.set` of an absent key appends in iteration order. -/
def TextCache.get (tc : TextCache) (k : String) : TextCache :=
  match tc.lookup k with
  | some v => ⟨tc.capacity, tc.entries.eraseP (fun e => e.1 == k) ++ [(k, v)]⟩
  | none => tc

/-- `set`: delete the key if present, append the pair, then evict
oldest-first while over capacity. -/
def TextCache.set (tc : TextCache) (k : String) (v : ℕ) : TextCache :=
  ⟨tc.capacity, trimTC tc.capacity (tc.entries.eraseP (fun e => e.1 == k) ++ [(k, v)])⟩

/-- An interaction with the cache. -/
inductive CacheOp where
  | get (k : String)
  | set (k : String) (v : ℕ)

/-- Run a sequence of cache interactions. -/
def runOps (tc : TextCache) (ops : List CacheOp) : TextCache :=
  ops.foldl (fun acc op =>
    match op with
    | .get k => acc.get k
    | .set k v => acc.set k v) tc

theorem trimTC_eq_drop (cap : ℕ) (l : List (String × ℕ)) :
    trimTC cap l = l.drop (l.length - cap) := by
  induction l with
  | nil => simp [trimTC]
  | cons e t ih =>
    unfold trimTC
    split_ifs with h
    · rw [ih]
      have hsum : (e :: t).length - cap = (t.length - cap) + 1 := by
        simp only [List.length_cons]
        omega
      rw [hsum, List.drop_succ_cons]
    · have hz : (e :: t).length - cap = 0 := by
        simp only [List.length_cons]
        omega
      rw [hz, List.drop_zero]

theorem eraseP_fresh (l : List (String × ℕ)) (k : String) (h : ∀ e ∈ l, e.1 ≠ k) :
    l.eraseP (fun e => e.1 == k) = l :=
  List.eraseP_of_forall_not (fun a ha => by simpa using h a ha)

theorem runOps_append (tc : TextCache) (l1 l2 : List CacheOp) :
    runOps tc (l1 ++ l2) = runOps (runOps tc l1) l2 := by
  unfold runOps
  exact List.foldl_append _ _ _ _

theorem runOps_single_set (tc : TextCache) (k : String) (v : ℕ) :
    runOps tc [CacheOp.set k v] = tc.set k v := rfl

theorem keys_ne_of_not_mem (ks : List String) (v : ℕ) (k : String) (hk : k ∉ ks) :
    ∀ e ∈ ks.map (fun k₀ => (k₀, v)), e.1 ≠ k := by
  intro e he
  obtain ⟨k₀, hk₀, rfl⟩ := List.mem_map.mp he
  intro hek
  exact hk (hek ▸ hk₀)

theorem runOps_fill (C : ℕ) (v : ℕ) (ks : List String) (hnd : ks.Nodup) (hlen : ks.length ≤ C) :
    runOps (emptyTC C) (ks.map (fun k => CacheOp.set k v)) =
      ⟨C, ks.map (fun k => (k, v))⟩ := by
  induction ks using List.reverseRecOn with
  | nil => rfl
  | append_singleton ks k ih =>
    have hparts := List.nodup_append.mp hnd
    have hkf : k ∉ ks := fun hk => hparts.2.2 hk (List.mem_singleton_self k)
    have hlen' : ks.length ≤ C := by
      simp only [List.length_append, List.length_singleton] at hlen
      omega
    rw [List.map_append, runOps_append, ih hparts.1 hlen']
    show TextCache.set ⟨C, ks.map fun k => (k, v)⟩ k v = _
    unfold TextCache.set
    simp only
    rw [eraseP_fresh _ _ (keys_ne_of_not_mem ks v k hkf), trimTC_eq_drop]
    have hz : (ks.map (fun k => (k, v)) ++ [(k, v)]).length - C = 0 := by
      simp only [List.length_append, List.length_map, List.length_singleton] at hlen ⊢
      omega
    rw [hz, List.drop_zero, List.map_append]
    rfl

theorem set_length_le (tc : TextCache) (k : String) (v : ℕ) :
    (tc.set k v).entries.length ≤ tc.capacity := by
  unfold TextCache.set
  simp only
  rw [trimTC_eq_drop, List.length_drop]
  omega

theorem get_length_le (tc : TextCache) (k : String) (h : tc.entries.length ≤ tc.capacity) :
    (tc.get k).entries.length ≤ tc.capacity := by
  unfold TextCache.get TextCache.lookup
  cases hfind : tc.entries.find? (fun e => e.1 == k) with
  | none => simpa [hfind] using h
  | some e =>
    have hmem := List.mem_of_find?_eq_some hfind
    have hp := List.find?_some hfind
    have hpos : 0 < tc.entries.length := List.length_pos_of_mem hmem
    have herase := @List.length_eraseP_of_mem _ _ _ (fun e => e.1 == k) hmem hp
    simp only [hfind, Option.map_some', List.length_append, List.length_cons,
      List.length_nil, herase]
    omega

theorem get_capacity (tc : TextCache) (k : String) : (tc.get k).capacity = tc.capacity := by
  unfold TextCache.get
  cases tc.lookup k <;> rfl

theorem runOps_bound (C : ℕ) (ops : List CacheOp) :
    (runOps (emptyTC C) ops).entries.length ≤ C := by
  suffices h : ∀ tc : TextCache, tc.capacity = C → tc.entries.length ≤ C →
      (runOps tc ops).capacity = C ∧ (runOps tc ops).entries.length ≤ C by
    exact (h (emptyTC C) rfl (by simp [emptyTC])).2
  induction ops with
  | nil =>
    intro tc h1 h2
    exact ⟨h1, h2⟩
  | cons op rest ih =>
    intro tc h1 h2
    cases op with
    | get k =>
      have hstep : runOps tc (CacheOp.get k :: rest) = runOps (tc.get k) rest := rfl
      rw [hstep]
      exact ih (tc.get k) (by rw [get_capacity, h1]) (by
        rw [← h1]
        exact get_length_le tc k (h1 ▸ h2))
    | set k v =>
      have hstep : runOps tc (CacheOp.set k v :: rest) = runOps (tc.set k v) rest := rfl
      rw [hstep]
      exact ih (tc.set k v) h1 (h1 ▸ set_length_le tc k v)

/-- C9: for any capacity `C ≥ 1`: (a) inserting `C+1` distinct keys into an
empty cache evicts exactly the first-inserted key, keeping the other `C`
entries in order; (b) a `get` of the oldest key just before the
overflowing insert promotes it, so the second-oldest key is evicted
instead and the promoted key survives (the scenario presupposes `C ≥ 2`,
i.e. at least two resident keys); (c) after every `get`/`set` sequence the
cache holds at most `C` entries. -/
theorem textCache_lru (C : ℕ) (hC : 1 ≤ C) (v : ℕ) :
    (∀ ks klast, (ks ++ [klast]).Nodup → ks.length = C →
      (runOps (emptyTC C) ((ks ++ [klast]).map (fun k => CacheOp.set k v))).entries =
        (ks.drop 1 ++ [klast]).map (fun k => (k, v))) ∧
    (∀ k0 k1 rest klast, ((k0 :: k1 :: rest) ++ [klast]).Nodup →
      (k0 :: k1 :: rest).length = C →
      (TextCache.set (TextCache.get (runOps (emptyTC C)
          ((k0 :: k1 :: rest).map (fun k => CacheOp.set k v))) k0) klast v).entries =
        (rest ++ [k0, klast]).map (fun k => (k, v))) ∧
    (∀ ops : List CacheOp, (runOps (emptyTC C) ops).entries.length ≤ C) := by
  refine ⟨?_, ?_, runOps_bound C⟩
  · intro ks klast hnd hlen
    have hparts := List.nodup_append.mp hnd
    have hkf : klast ∉ ks := fun hk => hparts.2.2 hk (List.mem_singleton_self klast)
    rw [List.map_append, runOps_append, runOps_fill C v ks hparts.1 (le_of_eq hlen),
      List.map_singleton, runOps_single_set]
    unfold TextCache.set
    simp only
    rw [eraseP_fresh _ _ (keys_ne_of_not_mem ks v klast hkf), trimTC_eq_drop]
    have hone : (ks.map (fun k => (k, v)) ++ [(klast, v)]).length - C = 1 := by
      simp only [List.length_append, List.length_map, List.length_singleton]
      omega
    rw [hone, List.drop_append_of_le_length (by simp only [List.length_map]; omega),
      ← List.map_drop, List.map_append, List.map_singleton]
  · intro k0 k1 rest klast hnd hlen
    have hparts := List.nodup_append.mp hnd
    have hkf : klast ∉ k0 :: k1 :: rest :=
      fun hk => hparts.2.2 hk (List.mem_singleton_self klast)
    rw [runOps_fill C v (k0 :: k1 :: rest) hparts.1 (le_of_eq hlen)]
    have hget : TextCache.get ⟨C, (k0 :: k1 :: rest).map (fun k => (k, v))⟩ k0 =
        ⟨C, (k1 :: rest).map (fun k => (k, v)) ++ [(k0, v)]⟩ := by
      unfold TextCache.get TextCache.lookup
      simp only [List.map_cons]
      rw [List.find?_cons_of_pos _ (by simp)]
      simp only [Option.map_some']
      rw [List.eraseP_cons_of_pos (by simp)]
    rw [hget]
    unfold TextCache.set
    simp only
    have hfresh : ∀ e ∈ (k1 :: rest).map (fun k => (k, v)) ++ [(k0, v)], e.1 ≠ klast := by
      intro e he
      rcases List.mem_append.mp he with h | h
      · obtain ⟨k₂, hk₂, rfl⟩ := List.mem_map.mp h
        intro hek
        exact hkf (hek ▸ List.mem_cons_of_mem k0 hk₂)
      · rw [List.mem_singleton.mp h]
        intro hek
        exact hkf (hek ▸ List.mem_cons_self k0 (k1 :: rest))
    rw [eraseP_fresh _ _ hfresh, trimTC_eq_drop]
    have hlen2 : (((k1 :: rest).map (fun k => (k, v)) ++ [(k0, v)]) ++ [(klast, v)]).length - C
        = 1 := by
      simp only [List.length_append, List.length_map, List.length_cons,
        List.length_nil] at hlen ⊢
      omega
    rw [hlen2]
    simp only [List.map_cons, List.cons_append, List.drop_succ_cons, List.drop_zero,
      List.map_append]
    simp

/-- Witness for C9 at capacity 2 with concrete keys. -/
theorem textCache_lru_witness :
    (runOps (emptyTC 2) (["a", "b", "c"].map (fun k => CacheOp.set k 0))).entries =
        [("b", 0), ("c", 0)] ∧
      (TextCache.set (TextCache.get (runOps (emptyTC 2)
          (["a", "b"].map (fun k => CacheOp.set k 0))) "a") "c" 0).entries =
        [("a", 0), ("c", 0)] ∧
      (runOps (emptyTC 2) [CacheOp.set "a" 0, CacheOp.get "a", CacheOp.set "b" 0]).entries.length
        ≤ 2 := by
  have h := textCache_lru 2 (by norm_num) 0
  refine ⟨?_, ?_, h.2.2 [CacheOp.set "a" 0, CacheOp.get "a", CacheOp.set "b" 0]⟩
  · have ha := h.1 ["a", "b"] "c" (by decide) rfl
    simpa using ha
  · have hb := h.2.1 "a" "b" [] "c" (by decide) rfl
    simpa using hb
